import Mathlib

/-!
Verification of the anchor-based track-changes patch engine in
`src/app/api/analyze/route.ts`.

The embedding is shallow and executable.  Conventions:

* A `w:r` run element is a `Run` with an identity tag `rid`, an optional
  formatting subtree `fmt` (the `w:rPr` child, treated as an opaque value
  that is cloned verbatim), and the text of its single `w:t` leaf.
  DOM object identity is modelled by `rid`: every run present in an input
  document carries a positive, distinct `rid`, while runs freshly created
  by `cloneRun` during a rewrite carry `rid = 0`, so `rid`-equality agrees
  with object identity in every reachable configuration.
* A paragraph (`w:p`) is the ordered list of its children; a document is
  the ordered list of its paragraphs.  `w:del` / `w:ins` revision wrappers
  carry their `w:id`, `w:author` and `w:date` attributes and the single
  cloned run they wrap.
* JavaScript string primitives (`includes`, `indexOf`, `substring`,
  `trim`, `replace(/\s+/g, ' ')`) are re-implemented over `List Char`;
  all test data is ASCII so UTF-16 index arithmetic coincides with
  character-index arithmetic.
-/

set_option autoImplicit false

namespace Lawroo

/-! ## String primitives (JavaScript semantics over `List Char`) -/

/-- `leadsList pat s` is true when `pat` occurs at the very front of `s`. -/
def leadsList : List Char → List Char → Bool
  | [], _ => true
  | _ :: _, [] => false
  | a :: pa, b :: sb => a = b && leadsList pa sb

/-- Smallest index at which `pat` occurs in `s` (JS `String.prototype.indexOf`,
returning `none` for `-1`). -/
def subIndex (pat : List Char) : List Char → Option Nat
  | [] => if leadsList pat [] then some 0 else none
  | c :: rest =>
    if leadsList pat (c :: rest) then some 0
    else (subIndex pat rest).map (· + 1)

/-- JS `s.includes(pat)`. -/
def containsStr (s pat : String) : Bool :=
  (subIndex pat.data s.data).isSome

/-- JS `s.indexOf(pat)` as an `Option`. -/
def sIndexOf (s pat : String) : Option Nat :=
  subIndex pat.data s.data

def strLen (s : String) : Nat := s.data.length

/-- JS `s.substring(0, n)`. -/
def strTake (s : String) (n : Nat) : String := ⟨s.data.take n⟩

/-- JS `s.substring(n)`. -/
def strDrop (s : String) (n : Nat) : String := ⟨s.data.drop n⟩

/-- JS `s.trim()` (over the ASCII whitespace classes Lean knows). -/
def trimList (l : List Char) : List Char :=
  ((l.dropWhile Char.isWhitespace).reverse.dropWhile Char.isWhitespace).reverse

def trimStr (s : String) : String := ⟨trimList s.data⟩

/-- Core of JS `s.replace(/\s+/g, ' ')`: each maximal whitespace block
becomes one space.  The flag records whether the previous character was
whitespace. -/
def collapseWsAux : Bool → List Char → List Char
  | _, [] => []
  | prevWs, c :: rest =>
    if c.isWhitespace then
      if prevWs then collapseWsAux true rest
      else ' ' :: collapseWsAux true rest
    else c :: collapseWsAux false rest

/-- JS `s.replace(/\s+/g, ' ').trim()`, the fuzzy pre-check normalization of
`applyTrackChangeToXml`. -/
def normalizeStr (s : String) : String :=
  ⟨trimList (collapseWsAux false s.data)⟩

/-! ## Data model -/

/-- A `w:r` run: identity tag, optional `w:rPr` formatting subtree (opaque,
cloned verbatim), and the text of its `w:t` leaf. -/
structure Run where
  rid : Nat
  fmt : Option Nat
  text : String
deriving DecidableEq, Repr

/-- A child of a `w:p` paragraph: a plain run, or a `w:del`/`w:ins`
revision wrapper carrying `w:id`, `w:author`, `w:date` and one cloned run. -/
inductive PChild where
  | run : Run → PChild
  | del : Nat → String → String → Run → PChild
  | ins : Nat → String → String → Run → PChild
deriving DecidableEq, Repr

abbrev Paragraph := List PChild
abbrev Document := List Paragraph

/-- One entry of the `textNodes` snapshot built by `getAllTextNodes`:
the identity of the run owning the `w:t` leaf, and the leaf's text
at snapshot time. -/
structure Span where
  rid : Nat
  text : String
deriving DecidableEq, Repr

/-- The `Suggestion` record produced from an AI change. -/
structure Suggestion where
  original : String
  suggestion : String
  reason : String
  changeType : String
deriving DecidableEq, Repr

/-- The `word/settings.xml` root's direct children: the `w:trackRevisions`
flag or any other setting element (opaque tag). -/
inductive SettingsChild where
  | trackRevisions : SettingsChild
  | other : String → SettingsChild
deriving DecidableEq, Repr

/-- The parts of the docx package this engine touches: the primary content
part and the optional settings part. -/
structure Package where
  document : Document
  settings : Option (List SettingsChild)
deriving DecidableEq, Repr

/-- `type` field of the Zod `ChangeSchema` (`type` is a Lean keyword,
hence the field name `ckind` below). -/
inductive ChangeKind where
  | replace | insert | delete
deriving DecidableEq, Repr

/-- One validated AI change record (`ChangeSchema`).  `match.original` /
`match.new` are flattened to `matchOriginal` / `matchNew` because `match`
is a Lean keyword. -/
structure Change where
  location : Option String := none
  section_key : String
  description : Option String := none
  what_it_does : Option String := none
  why_changed : String
  cid : Option String := none
  ckind : Option ChangeKind := none
  scope : Option String := none
  matchOriginal : String
  matchNew : Option String := none
deriving DecidableEq, Repr

/-! ## Input boundary (`analyzeLegalDocument`'s transformation) -/

/-- The `map` step of `analyzeLegalDocument`: `change.match.new || ''`. -/
def changeToSuggestion (c : Change) : Suggestion :=
  { original := c.matchOriginal
    suggestion := c.matchNew.getD ""
    reason := c.why_changed
    changeType := c.section_key }

/-- The `map`-then-`filter` step of `analyzeLegalDocument`: a suggestion
survives iff both `original` and `suggestion` are truthy (non-empty). -/
def changesToSuggestions (changes : List Change) : List Suggestion :=
  (changes.map changeToSuggestion).filter
    (fun s => s.original != "" && s.suggestion != "")

/-! ## Text extraction (`getAllTextNodes`) -/

/-- Spans contributed by one paragraph child.  `getAllTextNodes` records any
non-blank `w:t` leaf in document order, including leaves inside revision
wrappers. -/
def spanOf : PChild → List Span
  | PChild.run r => if trimStr r.text != "" then [⟨r.rid, r.text⟩] else []
  | PChild.del _ _ _ r => if trimStr r.text != "" then [⟨r.rid, r.text⟩] else []
  | PChild.ins _ _ _ r => if trimStr r.text != "" then [⟨r.rid, r.text⟩] else []

def extractFromPara (p : Paragraph) : List Span := (p.map spanOf).flatten

def extractSpans (doc : Document) : List Span := (doc.map extractFromPara).flatten

/-- `textNodes.map(n => n.text).join('')`. -/
def concatTexts : List Span → String
  | [] => ""
  | sp :: rest => sp.text ++ concatTexts rest

/-! ## Locating a snapshot element in the current tree

`findParentRun` / `findParentParagraph` walk up from a snapshot `w:t`
element; they succeed exactly when the owning run is still attached to a
paragraph of the document.  In the embedding that is a scan for the first
plain run carrying the element's `rid` (wrapped clone runs carry `rid = 0`
and are never snapshot targets). -/

/-- Child index and run of the first plain run with tag `rid` in a
paragraph. -/
def findRunInPara : Paragraph → Nat → Option (Nat × Run)
  | [], _ => none
  | PChild.run r :: rest, rid =>
    if r.rid = rid then some (0, r)
    else (findRunInPara rest rid).map (fun x => (x.1 + 1, x.2))
  | _ :: rest, rid => (findRunInPara rest rid).map (fun x => (x.1 + 1, x.2))

/-- Paragraph index, child index and run of the first plain run with tag
`rid` in the document. -/
def findRunLoc : Document → Nat → Option (Nat × Nat × Run)
  | [], _ => none
  | p :: rest, rid =>
    match findRunInPara p rid with
    | some (cIdx, r) => some (0, cIdx, r)
    | none => (findRunLoc rest rid).map (fun x => (x.1 + 1, x.2))

/-! ## Structural helpers for paragraph rewrites -/

/-- Replace the child at index `cIdx` of a paragraph by `pieces`
(insertBefore the pieces, then removeChild the original). -/
def replaceAt : Paragraph → Nat → List PChild → Paragraph
  | [], _, _ => []
  | _ :: rest, 0, pieces => pieces ++ rest
  | c :: rest, n + 1, pieces => c :: replaceAt rest n pieces

/-- Insert `pieces` immediately before the child at index `cIdx`. -/
def insertAt : Paragraph → Nat → List PChild → Paragraph
  | p, 0, pieces => pieces ++ p
  | [], _ + 1, pieces => pieces
  | c :: rest, n + 1, pieces => c :: insertAt rest n pieces

/-- Apply `f` to the paragraph at index `pIdx`, leaving every other
paragraph untouched. -/
def modifyPara : Document → Nat → (Paragraph → Paragraph) → Document
  | [], _, _ => []
  | p :: rest, 0, f => f p :: rest
  | p :: rest, n + 1, f => p :: modifyPara rest n f

/-! ## Marker construction (`cloneRun`, `createDeletionElement`,
`createInsertionElement`) -/

/-- `cloneRun`: a fresh `w:r` copying the source run's `w:rPr` verbatim and
holding `newText` in a fresh `w:t`.  Fresh nodes carry identity `0`. -/
def cloneRun (r : Run) (newText : String) : Run := ⟨0, r.fmt, newText⟩

/-- `createDeletionElement`: a `w:del` with the given id/author/date
wrapping one clone of `originalRun` carrying `text`. -/
def createDeletionElement (changeId : Nat) (author date : String)
    (text : String) (originalRun : Run) : PChild :=
  PChild.del changeId author date (cloneRun originalRun text)

/-- `createInsertionElement`: a `w:ins` with the given id/author/date
wrapping one clone of `originalRun` carrying `text`. -/
def createInsertionElement (changeId : Nat) (author date : String)
    (text : String) (originalRun : Run) : PChild :=
  PChild.ins changeId author date (cloneRun originalRun text)

/-! ## Document Mutator -/

/-- `applySingleNodeChange`: rewrite the run (identified by the snapshot
element's `rid`) whose snapshot text `text` contains the anchor.
`none` models `return false` (structural failure, nothing mutated);
`some doc` models `return true` with the mutated tree. -/
def applySingleNodeChange (doc : Document) (rid : Nat) (text : String)
    (sugg : Suggestion) (changeId : Nat) (author date : String) :
    Option Document :=
  match findRunLoc doc rid with
  | none => none
  | some (pIdx, cIdx, parentRun) =>
    let delElement := createDeletionElement changeId author date sugg.original parentRun
    let insElement := createInsertionElement (changeId + 1) author date sugg.suggestion parentRun
    match sIndexOf text sugg.original with
    | none => some doc
    | some index =>
      if index = 0 ∧ strLen text = strLen sugg.original then
        some (modifyPara doc pIdx (fun p => replaceAt p cIdx [delElement, insElement]))
      else
        let beforeText := strTake text index
        let afterText := strDrop text (index + strLen sugg.original)
        let pieces :=
          (if beforeText != "" then [PChild.run (cloneRun parentRun beforeText)] else [])
            ++ [delElement, insElement]
            ++ (if afterText != "" then [PChild.run { parentRun with text := afterText }] else [])
        some (modifyPara doc pIdx (fun p => replaceAt p cIdx pieces))

/-- Offsets of the match inside a multi-node group, exactly as computed by
the scanning loop in `applyMultiNodeChange`. -/
structure MatchBounds where
  startIdx : Nat
  startOff : Nat
  endIdx : Nat
  endOff : Nat
deriving DecidableEq, Repr

/-- The scanning loop of `applyMultiNodeChange`: `index` is the match
start, `stop` the match end (`index + original.length`), `lens` the node
text lengths.  `i`/`currentPos`/`start` are the loop variables. -/
def findBoundsAux (index stop : Nat) :
    List Nat → Nat → Nat → Option (Nat × Nat) → Option MatchBounds
  | [], _, _, _ => none
  | len :: rest, i, currentPos, start =>
    let start' :=
      if start.isNone ∧ index < currentPos + len then some (i, index - currentPos)
      else start
    if stop ≤ currentPos + len then
      match start' with
      | some (si, so) => some ⟨si, so, i, stop - currentPos⟩
      | none => none
    else findBoundsAux index stop rest (i + 1) (currentPos + len) start'

def findBounds (lens : List Nat) (index origLen : Nat) : Option MatchBounds :=
  findBoundsAux index (index + origLen) lens 0 0 none

/-- The `!runsToRemove.includes(run)` accumulation: keep the first
occurrence of each tag, in order. -/
def dedupFirst (l : List Nat) : List Nat :=
  l.foldl (fun acc x => if x ∈ acc then acc else acc ++ [x]) []

/-- `applyMultiNodeChange`: rewrite a match spanning the (consecutive)
snapshot nodes of `nodeGroup`, whose concatenated snapshot text is
`combinedText`. -/
def applyMultiNodeChange (doc : Document) (nodeGroup : List Span)
    (combinedText : String) (sugg : Suggestion) (changeId : Nat)
    (author date : String) : Option Document :=
  match sIndexOf combinedText sugg.original with
  | none => none
  | some index =>
    match findBounds (nodeGroup.map (fun sp => strLen sp.text)) index (strLen sugg.original) with
    | none => none
    | some b =>
      match nodeGroup.get? b.startIdx, nodeGroup.get? b.endIdx with
      | some startSpan, some endSpan =>
        match findRunLoc doc startSpan.rid with
        | none => none
        | some (pIdx, cIdx, firstRun) =>
          if b.startIdx = b.endIdx then
            applySingleNodeChange doc startSpan.rid startSpan.text sugg changeId author date
          else
            let delElement := createDeletionElement changeId author date sugg.original firstRun
            let insElement := createInsertionElement (changeId + 1) author date sugg.suggestion firstRun
            let removeRids :=
              dedupFirst (((nodeGroup.drop b.startIdx).take (b.endIdx - b.startIdx + 1)).map Span.rid)
            if removeRids.isEmpty then none
            else
              let lastRid := removeRids.getLastD 0
              let lastFmt := ((findRunLoc doc lastRid).map (fun x => x.2.2.fmt)).getD none
              let beforeText := strTake startSpan.text b.startOff
              let afterText := strDrop endSpan.text b.endOff
              let pieces :=
                (if 0 < b.startOff then [PChild.run (cloneRun firstRun beforeText)] else [])
                  ++ [delElement, insElement]
                  ++ (if b.endOff < strLen endSpan.text then [PChild.run ⟨0, lastFmt, afterText⟩] else [])
              some (modifyPara doc pIdx (fun p =>
                (insertAt p cIdx pieces).filter (fun c =>
                  match c with
                  | PChild.run r => !(removeRids.contains r.rid)
                  | _ => true)))
      | _, _ => none

/-! ## Anchor Resolver (`applyTrackChangeToXml`) -/

/-- Inner loop of the multi-span pass: accumulate up to `fuel` (20)
consecutive spans, returning the group and its concatenated text at the
first point where the anchor is contained. -/
def growWindow (orig : String) :
    String → List Span → List Span → Nat → Option (List Span × String)
  | _, _, _, 0 => none
  | _, _, [], _ + 1 => none
  | combined, grp, sp :: rest, fuel + 1 =>
    if containsStr (combined ++ sp.text) orig then
      some (grp ++ [sp], combined ++ sp.text)
    else growWindow orig (combined ++ sp.text) (grp ++ [sp]) rest fuel

/-- Outer loop of the multi-span pass: try each starting index in document
order. -/
def multiSearch (orig : String) : List Span → Option (List Span × String)
  | [] => none
  | sp :: rest =>
    match growWindow orig "" [] (sp :: rest) 20 with
    | some r => some r
    | none => multiSearch orig rest

/-- `applyTrackChangeToXml`: pre-check (exact, then whitespace-normalized),
then the single-span pass, then the bounded multi-span pass.  `none`
models `return false`. -/
def applyTrackChangeToXml (doc : Document) (textNodes : List Span)
    (sugg : Suggestion) (changeId : Nat) (author date : String) :
    Option Document :=
  let fullDocumentText := concatTexts textNodes
  if !containsStr fullDocumentText sugg.original &&
      !containsStr (normalizeStr fullDocumentText) (normalizeStr sugg.original) then
    none
  else
    match textNodes.find? (fun sp => containsStr sp.text sugg.original) with
    | some sp => applySingleNodeChange doc sp.rid sp.text sugg changeId author date
    | none =>
      match multiSearch sugg.original textNodes with
      | some (grp, combined) =>
        applyMultiNodeChange doc grp combined sugg changeId author date
      | none => none

/-! ## Revision Allocator and per-pass loop (`addTrackChangesToDocument`) -/

/-- The suggestion loop of `addTrackChangesToDocument`: the snapshot
`textNodes` is computed once; `changeId` starts at 1 and is incremented by
one per applied suggestion.  Returns the final tree, the final counter and
the list of marker ids emitted into the tree, in application order. -/
def addTrackChangesLoop (author date : String) :
    Document → List Span → List Suggestion → Nat → Document × Nat × List Nat
  | doc, _, [], changeId => (doc, changeId, [])
  | doc, textNodes, sugg :: rest, changeId =>
    match applyTrackChangeToXml doc textNodes sugg changeId author date with
    | some doc2 =>
      let r := addTrackChangesLoop author date doc2 textNodes rest (changeId + 1)
      (r.1, r.2.1, changeId :: (changeId + 1) :: r.2.2)
    | none => addTrackChangesLoop author date doc textNodes rest changeId

/-! ## Settings Patcher (`enableTrackChanges`) -/

/-- The direct-children scan for a `w:trackRevisions` element. -/
def hasTrackRevisions (children : List SettingsChild) : Bool :=
  children.any (fun c =>
    match c with
    | SettingsChild.trackRevisions => true
    | SettingsChild.other _ => false)

/-- `enableTrackChanges` on the settings part: synthesize a minimal part
when absent, otherwise append the flag only if no direct child already is
one. -/
def ensureTrackingEnabled : Option (List SettingsChild) → List SettingsChild
  | none => [SettingsChild.trackRevisions]
  | some children =>
    if hasTrackRevisions children then children
    else children ++ [SettingsChild.trackRevisions]

/-- How many direct children are the tracking flag. -/
def flagCount (children : List SettingsChild) : Nat :=
  (children.filter (fun c =>
    match c with
    | SettingsChild.trackRevisions => true
    | SettingsChild.other _ => false)).length

def isOtherSetting : SettingsChild → Bool
  | SettingsChild.other _ => true
  | SettingsChild.trackRevisions => false

/-- `addTrackChangesToDocument`: extract the snapshot once, run the
suggestion loop with the counter starting at 1, then patch the settings
part. -/
def addTrackChangesToDocument (author date : String) (pkg : Package)
    (suggestions : List Suggestion) : Package :=
  let textNodes := extractSpans pkg.document
  let r := addTrackChangesLoop author date pkg.document textNodes suggestions 1
  { document := r.1, settings := some (ensureTrackingEnabled pkg.settings) }

/-- The document-processing core of the `POST` handler: build suggestions
from the AI changes; when none survive the filter, return the original
package unchanged (the original buffer is echoed back); otherwise apply
track changes. -/
def processRequest (author date : String) (pkg : Package)
    (changes : List Change) : Package :=
  let suggestions := changesToSuggestions changes
  if suggestions.length = 0 then pkg
  else addTrackChangesToDocument author date pkg suggestions

/-- Marker ids emitted by one conversion pass, in application order. -/
def emittedIds (author date : String) (pkg : Package)
    (suggestions : List Suggestion) : List Nat :=
  (addTrackChangesLoop author date pkg.document (extractSpans pkg.document) suggestions 1).2.2

/-- Does the paragraph contain a plain run with tag `rid` among its
children? -/
def paraHasRid (p : Paragraph) (rid : Nat) : Bool :=
  p.any (fun c =>
    match c with
    | PChild.run r => r.rid == rid
    | _ => false)

/-- Is some plain run with tag `rid` still attached to some paragraph? -/
def ridPresent (doc : Document) (rid : Nat) : Bool :=
  doc.any (fun p => paraHasRid p rid)

/-! # Helper lemmas

## Substring search -/

theorem leadsList_iff (pat s : List Char) :
    leadsList pat s = true ↔ ∃ t, s = pat ++ t := by
  induction pat generalizing s with
  | nil => simp [leadsList]
  | cons a pa ih =>
    cases s with
    | nil => simp [leadsList]
    | cons b sb =>
      simp only [leadsList, Bool.and_eq_true, decide_eq_true_eq, List.cons_append,
        List.cons.injEq]
      constructor
      · rintro ⟨hab, h⟩
        obtain ⟨t, ht⟩ := (ih sb).mp h
        exact ⟨t, hab.symm, ht⟩
      · rintro ⟨t, hab, ht⟩
        exact ⟨hab.symm, (ih sb).mpr ⟨t, ht⟩⟩

theorem optMap_isSome {α β : Type} (f : α → β) (o : Option α) :
    (o.map f).isSome = o.isSome := by
  cases o <;> rfl

theorem subIndex_isSome_iff (pat s : List Char) :
    (subIndex pat s).isSome = true ↔ ∃ a b, s = a ++ pat ++ b := by
  induction s with
  | nil =>
    by_cases h : leadsList pat [] = true
    · have hp : pat = [] := by
        obtain ⟨t, ht⟩ := (leadsList_iff pat []).mp h
        exact (List.append_eq_nil.mp ht.symm).1
      subst hp
      rw [subIndex, if_pos h]
      exact ⟨fun _ => ⟨[], [], rfl⟩, fun _ => rfl⟩
    · have hp : pat ≠ [] := by
        intro hp; subst hp
        exact h ((leadsList_iff [] []).mpr ⟨[], rfl⟩)
      rw [subIndex, if_neg h]
      constructor
      · intro hs; cases hs
      · rintro ⟨a, b, hab⟩
        exfalso
        rcases List.append_eq_nil.mp hab.symm with ⟨h1, _⟩
        rcases List.append_eq_nil.mp h1 with ⟨_, h3⟩
        exact hp h3
  | cons c rest ih =>
    by_cases h : leadsList pat (c :: rest) = true
    · obtain ⟨t, ht⟩ := (leadsList_iff pat (c :: rest)).mp h
      rw [subIndex, if_pos h]
      exact ⟨fun _ => ⟨[], t, by simpa using ht⟩, fun _ => rfl⟩
    · rw [subIndex, if_neg h, optMap_isSome, ih]
      constructor
      · rintro ⟨a, b, hab⟩
        exact ⟨c :: a, b, by simp [hab]⟩
      · rintro ⟨a, b, hab⟩
        cases a with
        | nil =>
          exfalso
          exact h ((leadsList_iff pat (c :: rest)).mpr ⟨b, by simpa using hab⟩)
        | cons a' as =>
          simp only [List.cons_append, List.cons.injEq] at hab
          exact ⟨as, b, hab.2⟩

theorem containsStr_iff (s pat : String) :
    containsStr s pat = true ↔ ∃ a b, s.data = a ++ pat.data ++ b :=
  subIndex_isSome_iff pat.data s.data

theorem strData_append (a b : String) : (a ++ b).data = a.data ++ b.data := rfl

theorem strExt {a b : String} (h : a.data = b.data) : a = b := by
  cases a
  cases b
  exact congrArg String.mk h

theorem containsStr_append_right (s t pat : String)
    (h : containsStr s pat = true) : containsStr (s ++ t) pat = true := by
  obtain ⟨a, b, hab⟩ := (containsStr_iff s pat).mp h
  exact (containsStr_iff (s ++ t) pat).mpr
    ⟨a, b ++ t.data, by simp [strData_append, hab]⟩

theorem containsStr_append_left (s t pat : String)
    (h : containsStr s pat = true) : containsStr (t ++ s) pat = true := by
  obtain ⟨a, b, hab⟩ := (containsStr_iff s pat).mp h
  exact (containsStr_iff (t ++ s) pat).mpr
    ⟨t.data ++ a, b, by simp [strData_append, hab]⟩

theorem strAppend_assoc (a b c : String) : a ++ b ++ c = a ++ (b ++ c) :=
  strExt (by simp [strData_append])

theorem strNil_append (s : String) : "" ++ s = s :=
  strExt (by simp [strData_append])

theorem concatTexts_append (l₁ l₂ : List Span) :
    concatTexts (l₁ ++ l₂) = concatTexts l₁ ++ concatTexts l₂ := by
  induction l₁ with
  | nil => simp [concatTexts, strNil_append]
  | cons sp rest ih => simp [concatTexts, ih, strAppend_assoc]

/-- A span's text occurring anywhere implies the whole snapshot text
contains the pattern. -/
theorem contains_concat_of_mem {tn : List Span} {sp : Span} (pat : String)
    (hmem : sp ∈ tn) (h : containsStr sp.text pat = true) :
    containsStr (concatTexts tn) pat = true := by
  induction tn with
  | nil => cases hmem
  | cons sp' rest ih =>
    rcases List.mem_cons.mp hmem with heq | hmem'
    · subst heq
      exact containsStr_append_right _ _ _ h
    · exact containsStr_append_left _ _ _ (ih hmem')

/-- A window's concatenation occurring implies the whole snapshot text
contains the pattern. -/
theorem contains_concat_of_window {tn : List Span} (pat : String) (i k : Nat)
    (h : containsStr (concatTexts ((tn.drop i).take k)) pat = true) :
    containsStr (concatTexts tn) pat = true := by
  have h1 : tn = tn.take i ++ ((tn.drop i).take k ++ (tn.drop i).drop k) := by
    rw [List.take_append_drop, List.take_append_drop]
  rw [h1, concatTexts_append, concatTexts_append]
  exact containsStr_append_left _ _ _ (containsStr_append_right _ _ _ h)

/-! ## Resolver search lemmas -/

theorem growWindow_eq_none (orig : String) (fuel : Nat) :
    ∀ (acc : String) (grp rest : List Span),
      containsStr (acc ++ concatTexts (rest.take fuel)) orig = false →
      growWindow orig acc grp rest fuel = none := by
  induction fuel with
  | zero => intro acc grp rest _; cases rest <;> rfl
  | succ fuel ih =>
    intro acc grp rest h
    cases rest with
    | nil => rfl
    | cons sp r' =>
      have hbig : containsStr (acc ++ sp.text ++ concatTexts (r'.take fuel)) orig = false := by
        rw [strAppend_assoc]
        simpa [List.take_succ_cons, concatTexts] using h
      have hc : containsStr (acc ++ sp.text) orig = false := by
        cases hcv : containsStr (acc ++ sp.text) orig
        · rfl
        · have h2 := containsStr_append_right _ (concatTexts (r'.take fuel)) _ hcv
          rw [hbig] at h2
          exact Bool.noConfusion h2
      rw [growWindow, if_neg (by simp [hc])]
      exact ih (acc ++ sp.text) (grp ++ [sp]) r' hbig

theorem multiSearch_eq_none (orig : String) :
    ∀ l : List Span,
      (∀ i, containsStr (concatTexts ((l.drop i).take 20)) orig = false) →
      multiSearch orig l = none := by
  intro l
  induction l with
  | nil => intro _; rfl
  | cons sp r' ih =>
    intro h
    have hg : growWindow orig "" [] (sp :: r') 20 = none := by
      apply growWindow_eq_none
      rw [strNil_append]
      simpa using h 0
    rw [multiSearch, hg]
    exact ih (fun i => by simpa using h (i + 1))

/-- Skipping a suggestion that fails to apply leaves the loop state
unchanged (the remaining suggestions are still processed). -/
theorem loop_skip (a d : String) (doc : Document) (tn : List Span)
    (s : Suggestion) (rest : List Suggestion) (cid : Nat)
    (h : applyTrackChangeToXml doc tn s cid a d = none) :
    addTrackChangesLoop a d doc tn (s :: rest) cid =
      addTrackChangesLoop a d doc tn rest cid := by
  rw [addTrackChangesLoop, h]

/-! ## Structural lookup lemmas -/

theorem findRunInPara_eq_none_iff (p : Paragraph) (rid : Nat) :
    findRunInPara p rid = none ↔ paraHasRid p rid = false := by
  induction p with
  | nil => simp [findRunInPara, paraHasRid]
  | cons c rest ih =>
    cases c with
    | run r =>
      by_cases h : r.rid = rid
      · simp [findRunInPara, paraHasRid, h]
      · simp [findRunInPara, paraHasRid, h, Option.map_eq_none', ih]
    | del i a d r => simp [findRunInPara, paraHasRid, Option.map_eq_none', ih]
    | ins i a d r => simp [findRunInPara, paraHasRid, Option.map_eq_none', ih]

theorem findRunInPara_cons_run (r : Run) (l : Paragraph) (rid : Nat) :
    findRunInPara (PChild.run r :: l) rid =
      if r.rid = rid then some (0, r)
      else (findRunInPara l rid).map (fun x => (x.1 + 1, x.2)) := rfl

theorem findRunInPara_cons_del (i : Nat) (a d : String) (r : Run)
    (l : Paragraph) (rid : Nat) :
    findRunInPara (PChild.del i a d r :: l) rid =
      (findRunInPara l rid).map (fun x => (x.1 + 1, x.2)) := rfl

theorem findRunInPara_cons_ins (i : Nat) (a d : String) (r : Run)
    (l : Paragraph) (rid : Nat) :
    findRunInPara (PChild.ins i a d r :: l) rid =
      (findRunInPara l rid).map (fun x => (x.1 + 1, x.2)) := rfl

theorem findRunInPara_append (A B : Paragraph) (rid : Nat)
    (hA : paraHasRid A rid = false) :
    findRunInPara (A ++ B) rid =
      (findRunInPara B rid).map (fun x => (x.1 + A.length, x.2)) := by
  induction A with
  | nil =>
    cases hB : findRunInPara B rid <;> simp [hB]
  | cons c rest ih =>
    have hrest : paraHasRid rest rid = false := by
      simp [paraHasRid] at hA ⊢
      exact fun x hx => hA.2 x hx
    cases c with
    | run r =>
      have hr : ¬ r.rid = rid := by
        simp [paraHasRid] at hA
        simpa using hA.1
      rw [List.cons_append, findRunInPara_cons_run, if_neg hr, ih hrest]
      cases hB : findRunInPara B rid <;> simp <;> omega
    | del i a d r =>
      rw [List.cons_append, findRunInPara_cons_del, ih hrest]
      cases hB : findRunInPara B rid <;> simp <;> omega
    | ins i a d r =>
      rw [List.cons_append, findRunInPara_cons_ins, ih hrest]
      cases hB : findRunInPara B rid <;> simp <;> omega

theorem findRunLoc_cons (p : Paragraph) (P₂ : Document) (rid : Nat) :
    findRunLoc (p :: P₂) rid =
      match findRunInPara p rid with
      | some (cIdx, r) => some (0, cIdx, r)
      | none => (findRunLoc P₂ rid).map (fun x => (x.1 + 1, x.2)) := rfl

theorem findRunLoc_append (P₁ rest : Document) (rid : Nat)
    (h : ∀ p ∈ P₁, paraHasRid p rid = false) :
    findRunLoc (P₁ ++ rest) rid =
      (findRunLoc rest rid).map (fun x => (x.1 + P₁.length, x.2)) := by
  induction P₁ with
  | nil =>
    cases hr : findRunLoc rest rid <;> simp [hr]
  | cons p P' ih =>
    have hp : findRunInPara p rid = none :=
      (findRunInPara_eq_none_iff p rid).mpr (h p (List.mem_cons_self p P'))
    rw [List.cons_append, findRunLoc_cons, hp, ih (fun q hq => h q (List.mem_cons_of_mem p hq))]
    cases hr : findRunLoc rest rid <;> simp <;> omega

theorem findRunLoc_cons_found (p : Paragraph) (P₂ : Document) (rid : Nat)
    (c : Nat) (r : Run) (h : findRunInPara p rid = some (c, r)) :
    findRunLoc (p :: P₂) rid = some (0, c, r) := by
  rw [findRunLoc_cons, h]

/-- The first plain run with tag `r.rid` in `P₁ ++ (A ++ run r :: B) :: P₂`
is `r` itself, at paragraph index `P₁.length`, child index `A.length`,
provided `r.rid` does not occur earlier. -/
theorem findRunLoc_located (P₁ P₂ : Document) (A B : Paragraph) (r : Run)
    (hP₁ : ∀ p ∈ P₁, paraHasRid p r.rid = false)
    (hA : paraHasRid A r.rid = false) :
    findRunLoc (P₁ ++ (A ++ PChild.run r :: B) :: P₂) r.rid =
      some (P₁.length, A.length, r) := by
  have h1 : findRunInPara (A ++ PChild.run r :: B) r.rid = some (A.length, r) := by
    rw [findRunInPara_append _ _ _ hA, findRunInPara]
    simp
  rw [findRunLoc_append _ _ _ hP₁, findRunLoc_cons_found _ _ _ _ _ h1]
  simp

theorem modifyPara_append (P₁ : Document) (p : Paragraph) (P₂ : Document)
    (f : Paragraph → Paragraph) :
    modifyPara (P₁ ++ p :: P₂) P₁.length f = P₁ ++ f p :: P₂ := by
  induction P₁ with
  | nil => rfl
  | cons q P' ih => simp [modifyPara, ih]

theorem replaceAt_append (A : Paragraph) (c : PChild) (B pieces : List PChild) :
    replaceAt (A ++ c :: B) A.length pieces = A ++ pieces ++ B := by
  induction A with
  | nil => simp [replaceAt]
  | cons a A' ih => simp [replaceAt, ih]

theorem insertAt_append (A B pieces : List PChild) :
    insertAt (A ++ B) A.length pieces = A ++ pieces ++ B := by
  induction A with
  | nil => simp [insertAt]
  | cons a A' ih => simp [insertAt, ih]

/-! ## Settings Patcher lemmas -/

theorem ensure_some (cs : List SettingsChild) :
    ensureTrackingEnabled (some cs) =
      if hasTrackRevisions cs then cs
      else cs ++ [SettingsChild.trackRevisions] := rfl

theorem hasTrack_ensure (s : Option (List SettingsChild)) :
    hasTrackRevisions (ensureTrackingEnabled s) = true := by
  cases s with
  | none => rfl
  | some cs =>
    rw [ensure_some]
    by_cases h : hasTrackRevisions cs = true
    · rw [if_pos h]; exact h
    · rw [if_neg h]
      simp [hasTrackRevisions, List.any_append]

theorem ensure_idem (s : Option (List SettingsChild)) :
    ensureTrackingEnabled (some (ensureTrackingEnabled s)) = ensureTrackingEnabled s := by
  rw [ensure_some, if_pos (hasTrack_ensure s)]

theorem hasTrack_iff_flagCount (cs : List SettingsChild) :
    hasTrackRevisions cs = true ↔ 0 < flagCount cs := by
  induction cs with
  | nil => simp [hasTrackRevisions, flagCount]
  | cons c rest ih =>
    cases c with
    | trackRevisions => simp [hasTrackRevisions, flagCount]
    | other t => simpa [hasTrackRevisions, flagCount] using ih

theorem flagCount_append_flag (cs : List SettingsChild) :
    flagCount (cs ++ [SettingsChild.trackRevisions]) = flagCount cs + 1 := by
  simp [flagCount, List.filter_append]

theorem filter_other_append_flag (cs : List SettingsChild) :
    (cs ++ [SettingsChild.trackRevisions]).filter isOtherSetting =
      cs.filter isOtherSetting := by
  simp [List.filter_append, isOtherSetting]

/-! ## Revision-id sequence -/

/-- The id sequence produced by a pass with `k` applied operations when the
counter starts at `c`: each applied operation emits the pair
`(counter, counter + 1)` and advances the counter by one. -/
def idsFrom : Nat → Nat → List Nat
  | _, 0 => []
  | c, k + 1 => c :: (c + 1) :: idsFrom (c + 1) k

theorem idsFrom_chain_cons : ∀ (k c : Nat), List.Chain' (· ≤ ·) (c :: idsFrom c k) := by
  intro k
  induction k with
  | zero => intro c; simp [idsFrom]
  | succ k ih =>
    intro c
    rw [idsFrom]
    exact List.chain'_cons.mpr ⟨le_refl c,
      List.chain'_cons.mpr ⟨by omega, ih (c + 1)⟩⟩

theorem idsFrom_chain (c k : Nat) : List.Chain' (· ≤ ·) (idsFrom c k) := by
  cases k with
  | zero => simp [idsFrom]
  | succ k =>
    rw [idsFrom]
    exact List.chain'_cons.mpr ⟨by omega, idsFrom_chain_cons k (c + 1)⟩

/-! ## Multi-node rewrite lemmas -/

/-- The snapshot span of a run. -/
def runSpan (r : Run) : Span := ⟨r.rid, r.text⟩

theorem dedupFirst_aux (l : List Nat) :
    ∀ acc : List Nat, (∀ x ∈ l, x ∉ acc) → l.Nodup →
      l.foldl (fun acc x => if x ∈ acc then acc else acc ++ [x]) acc = acc ++ l := by
  induction l with
  | nil => intro acc _ _; simp
  | cons x l' ih =>
    intro acc hd h
    rw [List.foldl_cons, if_neg (hd x (List.mem_cons_self x l'))]
    rw [ih (acc ++ [x]) ?_ (List.nodup_cons.mp h).2]
    · simp
    · intro y hy
      simp only [List.mem_append, List.mem_singleton]
      rintro (hya | hyx)
      · exact hd y (List.mem_cons_of_mem x hy) hya
      · exact (List.nodup_cons.mp h).1 (hyx ▸ hy)

theorem dedupFirst_of_nodup (l : List Nat) (h : l.Nodup) : dedupFirst l = l := by
  simpa using dedupFirst_aux l [] (by simp) h

theorem findRunInPara_map_run_mem (rs : List Run) (B : Paragraph) (r : Run)
    (hmem : r ∈ rs) (hnd : (rs.map Run.rid).Nodup) :
    ∃ k, findRunInPara (rs.map PChild.run ++ B) r.rid = some (k, r) := by
  induction rs with
  | nil => cases hmem
  | cons r0 rs' ih =>
    rw [List.map_cons, List.cons_append, findRunInPara_cons_run]
    rcases List.mem_cons.mp hmem with heq | hmem'
    · subst heq
      rw [if_pos rfl]
      exact ⟨0, rfl⟩
    · have hnd' := hnd
      rw [List.map_cons] at hnd'
      have hpair := List.nodup_cons.mp hnd'
      have hne : ¬ r0.rid = r.rid := by
        have hin : r.rid ∈ rs'.map Run.rid := List.mem_map_of_mem Run.rid hmem'
        exact fun he => hpair.1 (he ▸ hin)
      rw [if_neg hne]
      obtain ⟨k, hk⟩ := ih hmem' hpair.2
      exact ⟨k + 1, by rw [hk]; rfl⟩

theorem findRunLoc_located_mem (P₁ P₂ : Document) (A B : Paragraph)
    (rs : List Run) (r : Run) (hmem : r ∈ rs)
    (hnd : (rs.map Run.rid).Nodup)
    (hP₁ : ∀ p ∈ P₁, paraHasRid p r.rid = false)
    (hA : paraHasRid A r.rid = false) :
    ∃ k, findRunLoc (P₁ ++ (A ++ rs.map PChild.run ++ B) :: P₂) r.rid =
      some (P₁.length, k, r) := by
  obtain ⟨k, hk⟩ := findRunInPara_map_run_mem rs B r hmem hnd
  have hpara : findRunInPara (A ++ rs.map PChild.run ++ B) r.rid =
      some (k + A.length, r) := by
    rw [List.append_assoc, findRunInPara_append _ _ _ hA, hk]
    rfl
  rw [findRunLoc_append _ _ _ hP₁, findRunLoc_cons_found _ _ _ _ _ hpara]
  exact ⟨k + A.length, by simp⟩

/-- Children whose runs never carry one of the removed tags all survive the
removal filter. -/
theorem filter_keep_of_noRids (L : Paragraph) (rids : List Nat)
    (h : ∀ i ∈ rids, paraHasRid L i = false) :
    L.filter (fun c =>
      match c with
      | PChild.run r => !(rids.contains r.rid)
      | _ => true) = L := by
  induction L with
  | nil => rfl
  | cons c rest ih =>
    have hrest : ∀ i ∈ rids, paraHasRid rest i = false := by
      intro i hi
      have := h i hi
      simp [paraHasRid] at this ⊢
      exact fun x hx => this.2 x hx
    cases c with
    | run r =>
      have hr : r.rid ∉ rids := by
        intro hmem
        have := h r.rid hmem
        simp [paraHasRid] at this
      simp only [List.filter_cons]
      rw [if_pos (by simp [hr]), ih hrest]
    | del i a d r =>
      simp only [List.filter_cons]
      rw [if_pos (by simp), ih hrest]
    | ins i a d r =>
      simp only [List.filter_cons]
      rw [if_pos (by simp), ih hrest]

/-- Every spanned run is dropped by the removal filter. -/
theorem filter_drop_runs (rs : List Run) (rids : List Nat)
    (h : ∀ r ∈ rs, r.rid ∈ rids) :
    (rs.map PChild.run).filter (fun c =>
      match c with
      | PChild.run r => !(rids.contains r.rid)
      | _ => true) = [] := by
  induction rs with
  | nil => rfl
  | cons r rs' ih =>
    simp only [List.map_cons, List.filter_cons]
    rw [if_neg (by simp [h r (List.mem_cons_self r rs')]), ih (fun q hq => h q (List.mem_cons_of_mem r hq))]

theorem ridPresent_append (D₁ D₂ : Document) (i : Nat) :
    ridPresent (D₁ ++ D₂) i = (ridPresent D₁ i || ridPresent D₂ i) := by
  simp [ridPresent, List.any_append]

theorem ridPresent_cons (p : Paragraph) (D : Document) (i : Nat) :
    ridPresent (p :: D) i = (paraHasRid p i || ridPresent D i) := by
  simp [ridPresent, paraHasRid]

theorem paraHasRid_append (L₁ L₂ : Paragraph) (i : Nat) :
    paraHasRid (L₁ ++ L₂) i = (paraHasRid L₁ i || paraHasRid L₂ i) := by
  simp [paraHasRid, List.any_append]

theorem loop_ids (a d : String) :
    ∀ (suggs : List Suggestion) (doc : Document) (tn : List Span) (cid : Nat),
      ∃ k, (addTrackChangesLoop a d doc tn suggs cid).2.2 = idsFrom cid k := by
  intro suggs
  induction suggs with
  | nil => intro doc tn cid; exact ⟨0, rfl⟩
  | cons s rest ih =>
    intro doc tn cid
    cases happ : applyTrackChangeToXml doc tn s cid a d with
    | none =>
      rw [loop_skip a d doc tn s rest cid happ]
      exact ih doc tn cid
    | some doc2 =>
      obtain ⟨k, hk⟩ := ih doc2 tn (cid + 1)
      refine ⟨k + 1, ?_⟩
      simp only [addTrackChangesLoop, happ]
      simp [idsFrom, hk]

/-! # Claims

Concrete example documents used by several counterexamples and witnesses. -/

def docHello : Document := [[PChild.run ⟨1, none, "hello"⟩]]

def pkgTwo : Package :=
  ⟨[[PChild.run ⟨1, none, "hello"⟩], [PChild.run ⟨2, none, "world"⟩]], none⟩

/-- Twenty-five consecutive single-character runs. -/
def doc25 : Document :=
  [("abcdefghijklmnopqrstuvwxy".data.map
      (fun c => PChild.run ⟨c.toNat, none, String.mk [c]⟩) : Paragraph)]

def deleteNoNew : Change :=
  { section_key := "k", why_changed := "w", ckind := some ChangeKind.delete,
    matchOriginal := "hello" }

def deleteWithNew : Change :=
  { section_key := "k", why_changed := "w", ckind := some ChangeKind.delete,
    matchOriginal := "a", matchNew := some "b" }

/-- C1 counterexample: with two successfully applied operations the pass
emits marker ids 1, 2, 2, 3 — the insertion id of the first operation
collides with the deletion id of the second, so the 2N ids are NOT all
distinct: the counter advances by one per applied operation, not by two. -/
theorem c1_counterexample :
    emittedIds "AI Legal Analyzer" "2026-01-01T00:00:00.000Z" pkgTwo
        [⟨"hello", "HI", "", ""⟩, ⟨"world", "EARTH", "", ""⟩] = [1, 2, 2, 3] ∧
    ¬ (emittedIds "AI Legal Analyzer" "2026-01-01T00:00:00.000Z" pkgTwo
        [⟨"hello", "HI", "", ""⟩, ⟨"world", "EARTH", "", ""⟩]).Nodup :=
  ⟨by decide, by decide⟩

/-- C1 (amended): the pass-scoped counter starts at 1 and advances by ONE
per applied operation; operation number `j` (0-based among applied ones)
emits the pair `(1 + j, 2 + j)`, so the two ids of one operation are
distinct and the emitted sequence is monotonically nondecreasing, but the
insertion id of each applied operation equals the deletion id of the next
one. -/
theorem c1_amended (a d : String) (pkg : Package) (suggs : List Suggestion) :
    ∃ k, emittedIds a d pkg suggs = idsFrom 1 k ∧
      List.Chain' (· ≤ ·) (emittedIds a d pkg suggs) := by
  obtain ⟨k, hk⟩ := loop_ids a d suggs pkg.document (extractSpans pkg.document) 1
  have hk' : emittedIds a d pkg suggs = idsFrom 1 k := hk
  exact ⟨k, hk', by rw [hk']; exact idsFrom_chain 1 k⟩

/-- C2 counterexample: a delete operation (no replacement text) whose
anchor occurs verbatim in the document produces NO deletion marker at all:
the suggestion is filtered out before the Mutator runs and the package is
returned unchanged. -/
theorem c2_counterexample :
    containsStr (concatTexts (extractSpans docHello)) "hello" = true ∧
    processRequest "AI Legal Analyzer" "2026-01-01T00:00:00.000Z"
        ⟨docHello, none⟩ [deleteNoNew] = ⟨docHello, none⟩ :=
  ⟨by decide, by decide⟩

/-- C2 (amended): an operation whose replacement text is empty or absent —
in particular every well-formed delete operation — is dropped by the
suggestion filter at the input boundary, so the Mutator never runs for it
and no marker of either kind is inserted. -/
theorem c2_amended (cs₁ cs₂ : List Change) (c : Change)
    (h : c.matchNew.getD "" = "") :
    changesToSuggestions (cs₁ ++ c :: cs₂) = changesToSuggestions (cs₁ ++ cs₂) := by
  simp [changesToSuggestions, changeToSuggestion, h]

/-- Witness for C2 (amended): the concrete delete change contributes no
suggestion. -/
theorem c2_witness :
    changesToSuggestions [deleteNoNew] = changesToSuggestions [] :=
  c2_amended [] [] deleteNoNew (by decide)

/-- C3 counterexample: the anchor "bc" spans run 1 (paragraph 0) and run 2
(paragraph 1).  The rewrite inserts the remainders and markers into the
first paragraph only and removes only runs that are children of that
paragraph, so the spanned run 2 — in the second paragraph — survives
unmodified (its text "cd" is even duplicated by the trailing remainder). -/
theorem c3_counterexample :
    applyTrackChangeToXml [[PChild.run ⟨1, none, "ab"⟩], [PChild.run ⟨2, none, "cd"⟩]]
        (extractSpans [[PChild.run ⟨1, none, "ab"⟩], [PChild.run ⟨2, none, "cd"⟩]])
        ⟨"bc", "XY", "", ""⟩ 1 "a" "d" =
      some [[PChild.run ⟨0, none, "a"⟩,
             PChild.del 1 "a" "d" ⟨0, none, "bc"⟩,
             PChild.ins 2 "a" "d" ⟨0, none, "XY"⟩,
             PChild.run ⟨0, none, "d"⟩],
            [PChild.run ⟨2, none, "cd"⟩]] ∧
    ridPresent [[PChild.run ⟨0, none, "a"⟩,
                 PChild.del 1 "a" "d" ⟨0, none, "bc"⟩,
                 PChild.ins 2 "a" "d" ⟨0, none, "XY"⟩,
                 PChild.run ⟨0, none, "d"⟩],
                [PChild.run ⟨2, none, "cd"⟩]] 2 = true :=
  ⟨by decide, by decide⟩

/-- C3 (amended): multi-run rewrite, restricted to the case the code
handles as the claim describes — all spanned runs are children of the
start run's paragraph.  Then the optional leading remainder (cloned from
the start run's formatting), the two markers, and the optional trailing
remainder (cloned from the end run's formatting) replace the spanned
subsequence, every spanned run is removed from the document, and all other
children and paragraphs are untouched.  (When the span crosses a paragraph
boundary, spanned runs outside the first paragraph survive — see the
counterexample.) -/
theorem c3_multi_node_rewrite
    (P₁ P₂ : Document) (A B : Paragraph) (r0 rlast : Run) (mid : List Run)
    (gpre : List Span) (combined : String) (sugg : Suggestion) (cid : Nat)
    (author date : String) (index so eo : Nat)
    (hfind : sIndexOf combined sugg.original = some index)
    (hbounds : findBounds ((gpre ++ (r0 :: mid ++ [rlast]).map runSpan).map
        (fun sp => strLen sp.text)) index (strLen sugg.original) =
      some ⟨gpre.length, so, gpre.length + (mid.length + 1), eo⟩)
    (hpos : ∀ r ∈ r0 :: mid ++ [rlast], 0 < r.rid)
    (hnd : ((r0 :: mid ++ [rlast]).map Run.rid).Nodup)
    (hP₁ : ∀ p ∈ P₁, ∀ r ∈ r0 :: mid ++ [rlast], paraHasRid p r.rid = false)
    (hP₂ : ∀ p ∈ P₂, ∀ r ∈ r0 :: mid ++ [rlast], paraHasRid p r.rid = false)
    (hA : ∀ r ∈ r0 :: mid ++ [rlast], paraHasRid A r.rid = false)
    (hB : ∀ r ∈ r0 :: mid ++ [rlast], paraHasRid B r.rid = false) :
    ∃ doc',
      applyMultiNodeChange
        (P₁ ++ (A ++ (r0 :: mid ++ [rlast]).map PChild.run ++ B) :: P₂)
        (gpre ++ (r0 :: mid ++ [rlast]).map runSpan) combined sugg cid author date =
        some doc' ∧
      doc' = P₁ ++ (A ++
        ((if 0 < so then [PChild.run ⟨0, r0.fmt, strTake r0.text so⟩] else [])
          ++ [PChild.del cid author date ⟨0, r0.fmt, sugg.original⟩,
              PChild.ins (cid + 1) author date ⟨0, r0.fmt, sugg.suggestion⟩]
          ++ (if eo < strLen rlast.text then
                [PChild.run ⟨0, rlast.fmt, strDrop rlast.text eo⟩] else []))
        ++ B) :: P₂ ∧
      ∀ r ∈ r0 :: mid ++ [rlast], ridPresent doc' r.rid = false := by
  set R : List Run := r0 :: mid ++ [rlast] with hR
  have hmem0 : r0 ∈ R := List.mem_cons_self _ _
  have hmemLast : rlast ∈ R := by simp [hR]
  -- the snapshot group element at the start index
  have hget_start : (gpre ++ R.map runSpan).get? gpre.length = some (runSpan r0) := by
    rw [List.get?_append_right (Nat.le_refl _)]
    simp [hR]
  have hget_end : (gpre ++ R.map runSpan).get? (gpre.length + (mid.length + 1)) =
      some (runSpan rlast) := by
    rw [List.get?_append_right (by omega)]
    have harith : gpre.length + (mid.length + 1) - gpre.length = mid.length + 1 := by omega
    have hsplit : List.map runSpan R = List.map runSpan (r0 :: mid) ++ [runSpan rlast] := by
      simp [hR]
    have hlen : (List.map runSpan (r0 :: mid)).length = mid.length + 1 := by simp
    rw [harith, hsplit, ← hlen, List.get?_concat_length]
  -- locating the first spanned run
  have hloc0 : findRunLoc (P₁ ++ (A ++ R.map PChild.run ++ B) :: P₂) r0.rid =
      some (P₁.length, A.length, r0) := by
    have hstep := findRunLoc_located P₁ P₂ A ((mid ++ [rlast]).map PChild.run ++ B) r0
      (fun p hp => hP₁ p hp r0 hmem0) (hA r0 hmem0)
    have hshape : A ++ PChild.run r0 :: ((mid ++ [rlast]).map PChild.run ++ B) =
        A ++ R.map PChild.run ++ B := by
      simp [hR]
    rw [hshape] at hstep
    exact hstep
  -- locating the last spanned run
  obtain ⟨kl, hlocLast⟩ := findRunLoc_located_mem P₁ P₂ A B R rlast hmemLast hnd
    (fun p hp => hP₁ p hp rlast hmemLast) (hA rlast hmemLast)
  -- the removal list
  have hremove : dedupFirst ((((gpre ++ R.map runSpan).drop gpre.length).take
      (gpre.length + (mid.length + 1) - gpre.length + 1)).map Span.rid) = R.map Run.rid := by
    rw [List.drop_left]
    have harith : gpre.length + (mid.length + 1) - gpre.length + 1 = mid.length + 2 := by omega
    have hlen : (R.map runSpan).length = mid.length + 2 := by simp [hR]
    rw [harith, List.take_of_length_le (le_of_eq hlen), List.map_map]
    have hcomp : (Span.rid ∘ runSpan) = Run.rid := rfl
    rw [hcomp, dedupFirst_of_nodup _ hnd]
  have hlastRid : (R.map Run.rid).getLastD 0 = rlast.rid := by
    have hsplit : R.map Run.rid = (r0 :: mid).map Run.rid ++ [rlast.rid] := by simp [hR]
    rw [hsplit, List.getLastD_concat]
  -- pieces never carry a removed tag (their runs are fresh, tag 0)
  have hpieces_no : ∀ i ∈ R.map Run.rid, paraHasRid
      ((if 0 < so then [PChild.run ⟨0, r0.fmt, strTake r0.text so⟩] else [])
        ++ [PChild.del cid author date ⟨0, r0.fmt, sugg.original⟩,
            PChild.ins (cid + 1) author date ⟨0, r0.fmt, sugg.suggestion⟩]
        ++ (if eo < strLen rlast.text then
              [PChild.run ⟨0, rlast.fmt, strDrop rlast.text eo⟩] else [])) i = false := by
    intro i hi
    have hipos : 0 < i := by
      obtain ⟨r, hr, hrid⟩ := List.mem_map.mp hi
      exact hrid ▸ hpos r hr
    have h0 : (0 == i) = false := by
      simp only [beq_eq_false_iff_ne]
      omega
    by_cases g1 : 0 < so <;> by_cases g2 : eo < strLen rlast.text <;>
      simp [paraHasRid, g1, g2, h0]
  have hfA := filter_keep_of_noRids A (R.map Run.rid) (by
    intro i hi
    obtain ⟨r, hr, hrid⟩ := List.mem_map.mp hi
    exact hrid ▸ hA r hr)
  have hfB := filter_keep_of_noRids B (R.map Run.rid) (by
    intro i hi
    obtain ⟨r, hr, hrid⟩ := List.mem_map.mp hi
    exact hrid ▸ hB r hr)
  have hfPieces := filter_keep_of_noRids _ _ hpieces_no
  have hfRuns := filter_drop_runs R (R.map Run.rid)
    (fun r hr => List.mem_map_of_mem Run.rid hr)
  have hne : ¬ (gpre.length = gpre.length + (mid.length + 1)) := by omega
  have hept : (R.map Run.rid).isEmpty = false := by simp [hR]
  refine ⟨_, ?_, rfl, ?_⟩
  · simp only [applyMultiNodeChange, hfind, hbounds, hget_start, hget_end, runSpan,
      hloc0, hne, if_false, hremove, hept, hlastRid, hlocLast,
      createDeletionElement, createInsertionElement, cloneRun,
      Option.map_some', Option.getD_some, Bool.false_eq_true, if_true, if_neg,
      Option.some.injEq]
    rw [modifyPara_append, List.append_assoc, insertAt_append,
      List.filter_append, List.filter_append, hfA, hfPieces,
      List.filter_append, hfRuns, hfB]
    simp [List.append_assoc]
  · intro r hr
    have hri : r.rid ∈ R.map Run.rid := List.mem_map_of_mem Run.rid hr
    rw [ridPresent_append, ridPresent_cons]
    have hP₁x : ridPresent P₁ r.rid = false := by
      simp only [ridPresent]
      rw [List.any_eq_false]
      intro p hp
      simp [hP₁ p hp r hr]
    have hP₂x : ridPresent P₂ r.rid = false := by
      simp only [ridPresent]
      rw [List.any_eq_false]
      intro p hp
      simp [hP₂ p hp r hr]
    have hparax : paraHasRid (A ++
        ((if 0 < so then [PChild.run ⟨0, r0.fmt, strTake r0.text so⟩] else [])
          ++ [PChild.del cid author date ⟨0, r0.fmt, sugg.original⟩,
              PChild.ins (cid + 1) author date ⟨0, r0.fmt, sugg.suggestion⟩]
          ++ (if eo < strLen rlast.text then
                [PChild.run ⟨0, rlast.fmt, strDrop rlast.text eo⟩] else []))
        ++ B) r.rid = false := by
      rw [paraHasRid_append, paraHasRid_append, hA r hr, hB r hr, hpieces_no r.rid hri]
      rfl
    rw [hP₁x, hP₂x, hparax]
    rfl

/-- Witness for C3 (amended): anchor "bcde" spanning three runs of one
paragraph. -/
theorem c3_witness :
    applyMultiNodeChange
        [[PChild.run ⟨1, some 1, "ab"⟩, PChild.run ⟨2, some 2, "cd"⟩,
          PChild.run ⟨3, some 3, "ef"⟩]]
        [⟨1, "ab"⟩, ⟨2, "cd"⟩, ⟨3, "ef"⟩] "abcdef" ⟨"bcde", "XY", "", ""⟩ 1 "a" "d" =
      some [[PChild.run ⟨0, some 1, "a"⟩,
             PChild.del 1 "a" "d" ⟨0, some 1, "bcde"⟩,
             PChild.ins 2 "a" "d" ⟨0, some 1, "XY"⟩,
             PChild.run ⟨0, some 3, "f"⟩]] := by
  obtain ⟨doc2, h1, h2, h3⟩ := c3_multi_node_rewrite [] [] [] []
    ⟨1, some 1, "ab"⟩ ⟨3, some 3, "ef"⟩ [⟨2, some 2, "cd"⟩] [] "abcdef"
    ⟨"bcde", "XY", "", ""⟩ 1 "a" "d" 1 1 1
    (by decide) (by decide) (by decide) (by decide)
    (by decide) (by decide) (by decide) (by decide)
  exact h1.trans (by rw [h2]; decide)

/-- C4: when the anchor occurs in the concatenated snapshot text but
neither in any single span nor in the concatenation of any window of at
most 20 consecutive spans, `applyTrackChangeToXml` reports not-applied:
anchors split across more than 20 consecutive runs are unresolvable. -/
theorem c4_window_cap (doc : Document) (tn : List Span) (sugg : Suggestion)
    (cid : Nat) (a d : String)
    (hne : sugg.original ≠ "")
    (hraw : containsStr (concatTexts tn) sugg.original = true)
    (hsingle : ∀ sp ∈ tn, containsStr sp.text sugg.original = false)
    (hwin : ∀ i < tn.length,
      containsStr (concatTexts ((tn.drop i).take 20)) sugg.original = false) :
    applyTrackChangeToXml doc tn sugg cid a d = none := by
  have hdata : sugg.original.data ≠ [] := by
    intro hd
    exact hne (strExt (by rw [hd]))
  have hemp : containsStr "" sugg.original = false := by
    rw [containsStr]
    cases hod : sugg.original.data with
    | nil => exact absurd hod hdata
    | cons ch cs => rfl
  have hfind : tn.find? (fun sp => containsStr sp.text sugg.original) = none := by
    rw [List.find?_eq_none]
    intro sp hsp hc
    rw [hsingle sp hsp] at hc
    exact Bool.noConfusion hc
  have hms : multiSearch sugg.original tn = none := by
    apply multiSearch_eq_none
    intro i
    by_cases hi : i < tn.length
    · exact hwin i hi
    · have hdrop : tn.drop i = [] := List.drop_eq_nil_of_le (by omega)
      rw [hdrop]
      simpa [concatTexts] using hemp
  simp only [applyTrackChangeToXml]
  rw [if_neg (by simp [hraw])]
  simp only [hfind, hms]

/-- Witness for C4: the anchor is physically present across 25
single-character runs, yet the operation is not applied. -/
theorem c4_witness :
    containsStr (concatTexts (extractSpans doc25)) "abcdefghijklmnopqrstuvwxy" = true ∧
    applyTrackChangeToXml doc25 (extractSpans doc25)
      ⟨"abcdefghijklmnopqrstuvwxy", "Z", "", ""⟩ 1 "a" "d" = none :=
  ⟨by decide,
   c4_window_cap doc25 (extractSpans doc25) ⟨"abcdefghijklmnopqrstuvwxy", "Z", "", ""⟩
     1 "a" "d" (by decide) (by decide) (by decide) (by decide)⟩

/-- C5: single-run rewrite.  When the anchor is the run's full text the run
is replaced in place by deletion marker then insertion marker; when the
match is partial, the paragraph gets (in place of the run) a leading plain
clone holding the text before the match if non-empty, the two markers, and
then the retained original run carrying the trailing remainder as its new
text if non-empty, or nothing when the remainder is empty.  Every other
child and paragraph is untouched. -/
theorem c5_single_node_rewrite
    (P₁ P₂ : Document) (A B : Paragraph) (r : Run)
    (sugg : Suggestion) (cid : Nat) (author date : String) (index : Nat)
    (hP₁ : ∀ p ∈ P₁, paraHasRid p r.rid = false)
    (hA : paraHasRid A r.rid = false)
    (hidx : sIndexOf r.text sugg.original = some index) :
    applySingleNodeChange (P₁ ++ (A ++ PChild.run r :: B) :: P₂) r.rid r.text
        sugg cid author date =
      some (P₁ ++ (A ++
        (if index = 0 ∧ strLen r.text = strLen sugg.original then
          [PChild.del cid author date ⟨0, r.fmt, sugg.original⟩,
           PChild.ins (cid + 1) author date ⟨0, r.fmt, sugg.suggestion⟩]
         else
          (if strTake r.text index != "" then
            [PChild.run ⟨0, r.fmt, strTake r.text index⟩] else [])
            ++ [PChild.del cid author date ⟨0, r.fmt, sugg.original⟩,
                PChild.ins (cid + 1) author date ⟨0, r.fmt, sugg.suggestion⟩]
            ++ (if strDrop r.text (index + strLen sugg.original) != "" then
                [PChild.run { r with text := strDrop r.text (index + strLen sugg.original) }]
               else []))
        ++ B) :: P₂) := by
  have hloc := findRunLoc_located P₁ P₂ A B r hP₁ hA
  simp only [applySingleNodeChange, hloc, hidx]
  by_cases hcase : index = 0 ∧ strLen r.text = strLen sugg.original
  · rw [if_pos hcase, if_pos hcase, modifyPara_append, replaceAt_append]
    rfl
  · rw [if_neg hcase, if_neg hcase, modifyPara_append, replaceAt_append]
    rfl

/-- Witness for C5: the partial-match split on the spec's own example run
"Governing law: Texas.". -/
theorem c5_witness :
    applySingleNodeChange [[PChild.run ⟨1, some 7, "Governing law: Texas."⟩]] 1
        "Governing law: Texas." ⟨"Texas", "Delaware", "", ""⟩ 1 "a" "d" =
      some [[PChild.run ⟨0, some 7, "Governing law: "⟩,
             PChild.del 1 "a" "d" ⟨0, some 7, "Texas"⟩,
             PChild.ins 2 "a" "d" ⟨0, some 7, "Delaware"⟩,
             PChild.run ⟨1, some 7, "."⟩]] :=
  Eq.trans
    (c5_single_node_rewrite [] [] [] [] ⟨1, some 7, "Governing law: Texas."⟩
      ⟨"Texas", "Delaware", "", ""⟩ 1 "a" "d" 15 (by decide) (by decide) (by decide))
    (by decide)

/-- C6 counterexample: on a settings part that already holds two tracking
flags, applying the patcher (once or twice) keeps both flags, so the
result does not have exactly one tracking flag element. -/
theorem c6_counterexample :
    flagCount (ensureTrackingEnabled (some (ensureTrackingEnabled
      (some [SettingsChild.trackRevisions, SettingsChild.trackRevisions])))) = 2 ∧
    ensureTrackingEnabled (some (ensureTrackingEnabled
      (some [SettingsChild.trackRevisions, SettingsChild.trackRevisions]))) =
      [SettingsChild.trackRevisions, SettingsChild.trackRevisions] :=
  ⟨by decide, by decide⟩

/-- C6 (amended): the patcher is idempotent and passes every non-flag
setting through untouched for arbitrary input; when the input settings
part holds at most one tracking flag (in particular when it is absent or
well-formed), the patched part holds exactly one; an absent part is
synthesized as the minimal part holding only the flag. -/
theorem c6_amended (s : Option (List SettingsChild))
    (h : flagCount (s.getD []) ≤ 1) :
    ensureTrackingEnabled (some (ensureTrackingEnabled s)) = ensureTrackingEnabled s ∧
    flagCount (ensureTrackingEnabled s) = 1 ∧
    (ensureTrackingEnabled s).filter isOtherSetting = (s.getD []).filter isOtherSetting ∧
    ensureTrackingEnabled none = [SettingsChild.trackRevisions] := by
  refine ⟨ensure_idem s, ?_, ?_, rfl⟩
  · cases s with
    | none => rfl
    | some cs =>
      simp only [Option.getD_some] at h
      rw [ensure_some]
      by_cases hh : hasTrackRevisions cs = true
      · rw [if_pos hh]
        have h1 := (hasTrack_iff_flagCount cs).mp hh
        omega
      · rw [if_neg hh, flagCount_append_flag]
        have h0 : flagCount cs = 0 := by
          have h2 := mt (hasTrack_iff_flagCount cs).mpr (by simpa using hh)
          omega
        omega
  · cases s with
    | none => rfl
    | some cs =>
      rw [ensure_some]
      by_cases hh : hasTrackRevisions cs = true
      · rw [if_pos hh]
        rfl
      · rw [if_neg hh, filter_other_append_flag]
        rfl

/-- Witness for C6 (amended) on a flagless one-setting part. -/
theorem c6_witness :
    ensureTrackingEnabled (some (ensureTrackingEnabled (some [SettingsChild.other "zoom"]))) =
      ensureTrackingEnabled (some [SettingsChild.other "zoom"]) ∧
    flagCount (ensureTrackingEnabled (some [SettingsChild.other "zoom"])) = 1 ∧
    (ensureTrackingEnabled (some [SettingsChild.other "zoom"])).filter isOtherSetting =
      ((some [SettingsChild.other "zoom"]).getD []).filter isOtherSetting ∧
    ensureTrackingEnabled none = [SettingsChild.trackRevisions] :=
  c6_amended (some [SettingsChild.other "zoom"]) (by decide)

/-- C7: an anchor absent from the concatenated span texts even after
whitespace normalization makes the operation fail with no mutation, and
the loop continues with the remaining operations exactly as if the failed
operation had not been present. -/
theorem c7_not_found_skips (doc : Document) (tn : List Span) (sugg : Suggestion)
    (rest : List Suggestion) (cid : Nat) (a d : String)
    (hraw : containsStr (concatTexts tn) sugg.original = false)
    (hnorm : containsStr (normalizeStr (concatTexts tn))
      (normalizeStr sugg.original) = false) :
    applyTrackChangeToXml doc tn sugg cid a d = none ∧
    addTrackChangesLoop a d doc tn (sugg :: rest) cid =
      addTrackChangesLoop a d doc tn rest cid := by
  have h1 : applyTrackChangeToXml doc tn sugg cid a d = none := by
    simp only [applyTrackChangeToXml]
    rw [if_pos (by simp [hraw, hnorm])]
  exact ⟨h1, loop_skip a d doc tn sugg rest cid h1⟩

/-- Witness for C7 with an anchor that the document does not contain. -/
theorem c7_witness :
    applyTrackChangeToXml docHello (extractSpans docHello)
        ⟨"zzz", "x", "", ""⟩ 1 "a" "d" = none ∧
    addTrackChangesLoop "a" "d" docHello (extractSpans docHello)
        [⟨"zzz", "x", "", ""⟩] 1 =
      addTrackChangesLoop "a" "d" docHello (extractSpans docHello) [] 1 :=
  c7_not_found_skips docHello (extractSpans docHello) ⟨"zzz", "x", "", ""⟩ [] 1 "a" "d"
    (by decide) (by decide)

/-- C8 counterexample: a delete operation carrying non-empty replacement
text is NOT rejected at the input boundary — it is resolved and applied
exactly like a replace, emitting both a deletion and an insertion
marker. -/
theorem c8_counterexample :
    processRequest "AI Legal Analyzer" "2026-01-01T00:00:00.000Z"
        ⟨[[PChild.run ⟨1, none, "a"⟩]], none⟩ [deleteWithNew] =
      ⟨[[PChild.del 1 "AI Legal Analyzer" "2026-01-01T00:00:00.000Z" ⟨0, none, "a"⟩,
         PChild.ins 2 "AI Legal Analyzer" "2026-01-01T00:00:00.000Z" ⟨0, none, "b"⟩]],
       some [SettingsChild.trackRevisions]⟩ := by decide

/-- C8 (amended): the boundary keeps any change whose anchor and
replacement are both non-empty and drops all others, entirely ignoring the
declared operation kind — a delete with non-empty replacement passes and
is processed identically to a replace, and outcome reporting does not
distinguish a validation rejection. -/
theorem c8_amended (c : Change) (t : Option ChangeKind) :
    changesToSuggestions [c] =
      (if c.matchOriginal != "" && c.matchNew.getD "" != ""
        then [changeToSuggestion c] else []) ∧
    changeToSuggestion { c with ckind := t } = changeToSuggestion c := by
  constructor
  · cases hcond : (c.matchOriginal != "" && c.matchNew.getD "" != "") <;>
      simp [changesToSuggestions, changeToSuggestion, hcond]
  · rfl

/-- C9 counterexample: with an empty change list the original package is
echoed back without running the Settings Patcher, so the output settings
part carries no tracking flag. -/
theorem c9_counterexample :
    processRequest "AI Legal Analyzer" "2026-01-01T00:00:00.000Z"
        ⟨docHello, none⟩ [] = ⟨docHello, none⟩ ∧
    (processRequest "AI Legal Analyzer" "2026-01-01T00:00:00.000Z"
        ⟨docHello, none⟩ []).settings = none :=
  ⟨by decide, by decide⟩

/-- C9 (amended): the Settings Patcher runs once after all edits only when
at least one suggestion survives the boundary filter, and then the output
settings part contains the tracking flag; when no suggestion survives, the
original package — settings part untouched — is returned. -/
theorem c9_amended (a d : String) (pkg : Package) (changes : List Change) :
    (changesToSuggestions changes = [] → processRequest a d pkg changes = pkg) ∧
    (changesToSuggestions changes ≠ [] →
      (processRequest a d pkg changes).settings =
        some (ensureTrackingEnabled pkg.settings) ∧
      hasTrackRevisions ((processRequest a d pkg changes).settings.getD []) = true) := by
  constructor
  · intro h
    simp [processRequest, h]
  · intro h
    have hlen : ¬ (changesToSuggestions changes).length = 0 := by
      simpa [List.length_eq_zero] using h
    have hpr : processRequest a d pkg changes =
        addTrackChangesToDocument a d pkg (changesToSuggestions changes) := by
      simp [processRequest, hlen]
    rw [hpr]
    refine ⟨rfl, ?_⟩
    have hs : (addTrackChangesToDocument a d pkg (changesToSuggestions changes)).settings =
        some (ensureTrackingEnabled pkg.settings) := rfl
    rw [hs]
    simpa using hasTrack_ensure pkg.settings

/-- Witness for C9 (amended): one surviving replace suggestion patches the
settings part. -/
theorem c9_witness :
    (processRequest "a" "d" ⟨docHello, none⟩
        [{ section_key := "k", why_changed := "w", matchOriginal := "hello",
           matchNew := some "HI" }]).settings =
      some (ensureTrackingEnabled (none : Option (List SettingsChild))) ∧
    hasTrackRevisions ((processRequest "a" "d" ⟨docHello, none⟩
        [{ section_key := "k", why_changed := "w", matchOriginal := "hello",
           matchNew := some "HI" }]).settings.getD []) = true :=
  (c9_amended "a" "d" ⟨docHello, none⟩
    [{ section_key := "k", why_changed := "w", matchOriginal := "hello",
       matchNew := some "HI" }]).2 (by decide)

/-- C10: whenever the anchor is not an exact substring of the concatenated
span texts, the operation is never applied — whitespace normalization only
affects the pre-check, while both location passes demand an exact
substring match. -/
theorem c10_normalization_never_applies (doc : Document) (tn : List Span)
    (sugg : Suggestion) (cid : Nat) (a d : String)
    (hraw : containsStr (concatTexts tn) sugg.original = false) :
    applyTrackChangeToXml doc tn sugg cid a d = none := by
  have hfind : tn.find? (fun sp => containsStr sp.text sugg.original) = none := by
    rw [List.find?_eq_none]
    intro sp hsp hc
    have hcc := contains_concat_of_mem sugg.original hsp hc
    rw [hraw] at hcc
    exact Bool.noConfusion hcc
  have hms : multiSearch sugg.original tn = none := by
    apply multiSearch_eq_none
    intro i
    cases hw : containsStr (concatTexts ((tn.drop i).take 20)) sugg.original
    · rfl
    · have hcc := contains_concat_of_window sugg.original i 20 hw
      rw [hraw] at hcc
      exact Bool.noConfusion hcc
  simp only [applyTrackChangeToXml]
  by_cases hcond : (!containsStr (concatTexts tn) sugg.original &&
      !containsStr (normalizeStr (concatTexts tn)) (normalizeStr sugg.original)) = true
  · rw [if_pos hcond]
  · rw [if_neg hcond]
    simp only [hfind, hms]

/-- Witness for C10: the anchor differs from the document text only in
whitespace, so the normalized pre-check passes, yet the operation is still
not applied. -/
theorem c10_witness :
    containsStr (normalizeStr (concatTexts (extractSpans [[PChild.run ⟨1, none, "hello world"⟩]])))
        (normalizeStr "hello  world") = true ∧
    applyTrackChangeToXml [[PChild.run ⟨1, none, "hello world"⟩]]
        (extractSpans [[PChild.run ⟨1, none, "hello world"⟩]])
        ⟨"hello  world", "x", "", ""⟩ 1 "a" "d" = none :=
  ⟨by decide,
   c10_normalization_never_applies [[PChild.run ⟨1, none, "hello world"⟩]]
     (extractSpans [[PChild.run ⟨1, none, "hello world"⟩]])
     ⟨"hello  world", "x", "", ""⟩ 1 "a" "d" (by decide)⟩

end Lawroo
